import Mathlib

/-!
Verification of the ingestion-and-arbitrage-matching core of the
arbitrage-betting-platform repository.

Embedding conventions:
* JavaScript numbers are modelled as rationals (ℚ).  All prices handled by
  the claims are finite decimals, so the idealisation is exact on them; the
  JS `isFinite` guard is noted in a comment wherever the source performs it
  (a ℚ value is always finite, so the guard never fires in the model).
* The SHA-1 digest of the fingerprint string "A:<bestA>|B:<bestB>" is a
  deterministic function of the pair (bestA, bestB); it is modelled as an
  explicit parameter `digest : ℚ → ℚ → String` threaded through the
  fingerprint functions, standing for the composition of JS number
  formatting, string interpolation and `createHash("sha1")`.
* `undefined` fields become `Option`; JS string keys built with template
  literals become Lean `String` concatenation.
-/

namespace ArbPlatform

/-- From web/lib/oddsUpdater.ts (twoWayArbROI):
`invSum = 1/decA + 1/decB; return invSum < 1 ? 1 - invSum : 0`. -/
def twoWayArbROIUpdater (decA decB : ℚ) : ℚ :=
  let invSum := 1 / decA + 1 / decB
  if invSum < 1 then 1 - invSum else 0

/-- From lib/arbitrage.ts (twoWayArbROI):
`s = 1/a + 1/b; if (s >= 1) return 0; return (1 - s) / s`. -/
def twoWayArbROI (a b : ℚ) : ℚ :=
  let s := 1 / a + 1 / b
  if s ≥ 1 then 0 else (1 - s) / s

/-- From web/app/api/opportunities/route.ts (roiOnStake):
`s = 1/a + 1/b; return (1 - s) / s` (no guard for s ≥ 1). -/
def roiOnStake (a b : ℚ) : ℚ :=
  let s := 1 / a + 1 / b
  (1 - s) / s

/-- From lib/arbitrage.ts (roiPct):
`s = 1/a + 1/b; if (s >= 1) return 0; return ((1 - s) / s) * 100`. -/
def roiPct (a b : ℚ) : ℚ :=
  let s := 1 / a + 1 / b
  if s ≥ 1 then 0 else (1 - s) / s * 100

/-- From lib/arbitrage.ts (calcTwoWayRoi):
`if (!a || !b || a <= 0 || b <= 0 || !isFinite(a) || !isFinite(b)) return 0;`
(`!a` is JS falsiness, i.e. a = 0; the isFinite guard never fires on ℚ);
then `k = 1/a + 1/b; if (k >= 1) return 0; roi = 1/k - 1; return roi > 0 ? roi : 0`. -/
def calcTwoWayRoi (a b : ℚ) : ℚ :=
  if a = 0 ∨ b = 0 ∨ a ≤ 0 ∨ b ≤ 0 then 0
  else
    let k := 1 / a + 1 / b
    if k ≥ 1 then 0
    else
      let roi := 1 / k - 1
      if roi > 0 then roi else 0

/-- From lib/arbitrage.ts (stakeSplit):
`s = 1/a + 1/b; stakeA = target * (1/a) / s; stakeB = target * (1/b) / s`. -/
def stakeSplit (target a b : ℚ) : ℚ × ℚ :=
  let s := 1 / a + 1 / b
  (target * (1 / a) / s, target * (1 / b) / s)

/-- Market kinds, from lib/arbitrage.ts (MarketKind). -/
inductive MarketKind where
  | ML
  | SPREAD
  | TOTAL
deriving DecidableEq, Repr

/-- Outcome kinds, from lib/arbitrage.ts (OutcomeKind). -/
inductive OutcomeKind where
  | A
  | B
  | OVER
  | UNDER
deriving DecidableEq, Repr

/-- A price leg handed to the matcher, from lib/arbitrage.ts (ArbLeg). -/
structure ArbLeg where
  book : String
  outcome : OutcomeKind
  decimal : ℚ
  line : Option ℚ
  market : MarketKind
deriving DecidableEq, Repr

/-- An emitted arbitrage pair, from lib/arbitrage.ts (ArbPair). -/
structure ArbPair where
  market : MarketKind
  line : Option ℚ
  a : ArbLeg
  b : ArbLeg
  roi : ℚ
deriving DecidableEq, Repr

/-- From lib/arbitrage.ts (isExactLineMatch):
ML always matches; otherwise both lines must be numbers and strictly equal
(`typeof l1 === "number" && typeof l2 === "number" && l1 === l2`). -/
def isExactLineMatch (market : MarketKind) (l1 l2 : Option ℚ) : Bool :=
  if market = MarketKind.ML then true
  else
    match l1, l2 with
    | some x, some y => x = y
    | _, _ => false

/-- Grouping key used by findTwoWayArbs: `(market, lineKey)` where
`lineKey = "ML"` for moneyline and `String(leg.line)` otherwise
(JS number-to-string is injective, and `String(undefined)` collides with no
number, so the key is faithfully the pair of market and optional line). -/
def legKey (l : ArbLeg) : MarketKind × Option ℚ :=
  (l.market, if l.market = MarketKind.ML then none else l.line)

/-- Selection `.sort((x, y) => y.decimal - x.decimal)[0]`: the first leg
attaining the maximal decimal price (JS sort is stable, ties keep order). -/
def pickBest : List ArbLeg → Option ArbLeg
  | [] => none
  | l :: ls =>
    match pickBest ls with
    | none => some l
    | some m => if m.decimal > l.decimal then some m else some l

/-- First-occurrence deduplication, matching JS `Map` insertion order. -/
def dedupKeys (l : List (MarketKind × Option ℚ)) : List (MarketKind × Option ℚ) :=
  l.foldl (fun acc k => if k ∈ acc then acc else acc ++ [k]) []

/-- One group of findTwoWayArbs: filter the group's legs, pick the best leg
on each opposing side, check the exact line match (SPREAD/TOTAL), compute
ROI with calcTwoWayRoi and emit the pair when the ROI is positive. -/
def groupPair (legs : List ArbLeg) (key : MarketKind × Option ℚ) : Option ArbPair :=
  let g := legs.filter (fun l => legKey l = key)
  match key.1 with
  | MarketKind.ML =>
    match pickBest (g.filter (fun l => l.outcome = OutcomeKind.A)),
          pickBest (g.filter (fun l => l.outcome = OutcomeKind.B)) with
    | some a, some b =>
      let roi := calcTwoWayRoi a.decimal b.decimal
      if roi > 0 then some ⟨MarketKind.ML, none, a, b, roi⟩ else none
    | _, _ => none
  | MarketKind.SPREAD =>
    match pickBest (g.filter (fun l => l.outcome = OutcomeKind.A)),
          pickBest (g.filter (fun l => l.outcome = OutcomeKind.B)) with
    | some a, some b =>
      if isExactLineMatch MarketKind.SPREAD a.line b.line then
        let roi := calcTwoWayRoi a.decimal b.decimal
        if roi > 0 then some ⟨MarketKind.SPREAD, key.2, a, b, roi⟩ else none
      else none
    | _, _ => none
  | MarketKind.TOTAL =>
    match pickBest (g.filter (fun l => l.outcome = OutcomeKind.OVER)),
          pickBest (g.filter (fun l => l.outcome = OutcomeKind.UNDER)) with
    | some over, some under =>
      if isExactLineMatch MarketKind.TOTAL over.line under.line then
        let roi := calcTwoWayRoi over.decimal under.decimal
        if roi > 0 then some ⟨MarketKind.TOTAL, key.2, over, under, roi⟩ else none
      else none
    | _, _ => none

/-- Stable insertion of a pair into a list sorted descending by roi,
matching JS stable `sort((x, y) => y.roi - x.roi)`. -/
def insertDescRoi (p : ArbPair) : List ArbPair → List ArbPair
  | [] => [p]
  | q :: qs => if p.roi > q.roi then p :: q :: qs else q :: insertDescRoi p qs

/-- Descending stable sort by roi. -/
def sortByRoiDesc (l : List ArbPair) : List ArbPair :=
  l.foldr insertDescRoi []

/-- From lib/arbitrage.ts (findTwoWayArbs): group legs by (market, lineKey),
produce at most one pair per group, and sort all pairs descending by roi. -/
def findTwoWayArbs (legs : List ArbLeg) : List ArbPair :=
  sortByRoiDesc ((dedupKeys (legs.map legKey)).filterMap (groupPair legs))

/-- Concrete input for the same-book counterexample: best A and best B of the
single (ML) group are both quoted by BookX at decimal 2.10. -/
def sameBookLegs : List ArbLeg :=
  [⟨"BookX", OutcomeKind.A, 21/10, none, MarketKind.ML⟩,
   ⟨"BookX", OutcomeKind.B, 21/10, none, MarketKind.ML⟩]

/-- Concrete SPREAD legs producing one emitted pair (lines match at -3.5). -/
def spreadDemoLegs : List ArbLeg :=
  [⟨"BookX", OutcomeKind.A, 22/10, some (-7/2), MarketKind.SPREAD⟩,
   ⟨"BookY", OutcomeKind.B, 22/10, some (-7/2), MarketKind.SPREAD⟩]

/-! ## Provider adapter (lib/oddsAdapters/theOddsApi.ts) -/

/-- Raw outcome in a provider market.  `point` is `undefined` for h2h; for
spreads/totals the source coerces it with
`typeof out.point === "number" ? out.point : Number(out.point)`; a missing
point coerces to NaN, which the ℚ model keeps as `none`. -/
structure RawOutcome where
  name : String
  price : ℚ
  point : Option ℚ
deriving DecidableEq, Repr

/-- Raw provider market (key is "h2h", "spreads" or "totals"). -/
structure RawMarket where
  key : String
  outcomes : List RawOutcome
deriving DecidableEq, Repr

/-- Raw provider bookmaker.  The source re-serialises `last_update` through
`new Date(...).toISOString()`; no claim inspects the value, so the model
passes the raw string through. -/
structure RawBookmaker where
  key : String
  title : String
  markets : List RawMarket
  last_update : Option String
deriving DecidableEq, Repr

/-- Raw provider event (RawOddsApiEvent). -/
structure RawOddsApiEvent where
  id : String
  sport_key : String
  sport_title : String
  commence_time : String
  home_team : String
  away_team : String
  bookmakers : List RawBookmaker
deriving DecidableEq, Repr

/-- Normalized line (NormalizedLine). -/
structure NormalizedLine where
  book : String
  market : MarketKind
  outcome : OutcomeKind
  decimal : ℚ
  line : Option ℚ
  providerUpdatedAt : Option String
deriving DecidableEq, Repr

/-- Normalized event (NormalizedEvent). -/
structure NormalizedEvent where
  league : String
  sport : String
  startsAt : String
  teamA : String
  teamB : String
  lines : List NormalizedLine
deriving DecidableEq, Repr

/-- Display name `book.title || book.key`: the bookmaker title, falling back
to the key when the title is empty (falsy). -/
def rawBookName (bk : RawBookmaker) : String :=
  if bk.title = "" then bk.key else bk.title

/-- One h2h outcome → normalized ML line: the trimmed outcome name must equal
the away team (outcome A) or the home team (outcome B); other names are
silently dropped. -/
def mlOutcomeLine (teamA teamB book : String) (upd : Option String)
    (out : RawOutcome) : Option NormalizedLine :=
  let name := out.name.trim
  if name = teamA then some ⟨book, MarketKind.ML, OutcomeKind.A, out.price, none, upd⟩
  else if name = teamB then some ⟨book, MarketKind.ML, OutcomeKind.B, out.price, none, upd⟩
  else none

/-- One spreads outcome → normalized SPREAD line (point carried as `line`). -/
def spreadOutcomeLine (teamA teamB book : String) (upd : Option String)
    (out : RawOutcome) : Option NormalizedLine :=
  let name := out.name.trim
  if name = teamA then some ⟨book, MarketKind.SPREAD, OutcomeKind.A, out.price, out.point, upd⟩
  else if name = teamB then some ⟨book, MarketKind.SPREAD, OutcomeKind.B, out.price, out.point, upd⟩
  else none

/-- One totals outcome → normalized TOTAL line, matched case-insensitively
against "over"/"under". -/
def totalOutcomeLine (book : String) (upd : Option String)
    (out : RawOutcome) : Option NormalizedLine :=
  let name := out.name.trim.toLower
  if name = "over" then some ⟨book, MarketKind.TOTAL, OutcomeKind.OVER, out.price, out.point, upd⟩
  else if name = "under" then some ⟨book, MarketKind.TOTAL, OutcomeKind.UNDER, out.price, out.point, upd⟩
  else none

/-- All normalized lines contributed by one bookmaker: the h2h, spreads and
totals markets are looked up by key and their outcomes mapped in order. -/
def bookLines (teamA teamB : String) (bk : RawBookmaker) : List NormalizedLine :=
  let book := rawBookName bk
  let upd := bk.last_update
  let mls := match bk.markets.find? (fun m => m.key == "h2h") with
    | some ml => ml.outcomes.filterMap (mlOutcomeLine teamA teamB book upd)
    | none => []
  let sps := match bk.markets.find? (fun m => m.key == "spreads") with
    | some sp => sp.outcomes.filterMap (spreadOutcomeLine teamA teamB book upd)
    | none => []
  let tts := match bk.markets.find? (fun m => m.key == "totals") with
    | some tt => tt.outcomes.filterMap (totalOutcomeLine book upd)
    | none => []
  mls ++ sps ++ tts

/-- Normalize one raw event.  The league is derived from the sport title via a
regex (`splitSportTitle`); no claim depends on it, so that derivation is the
parameter `leagueOf` applied to `(sport_title, sport_key)`.  Events with no
matched lines are dropped. -/
def normalizeRawEvent (leagueOf : String → String → String)
    (ev : RawOddsApiEvent) : Option NormalizedEvent :=
  let league := leagueOf ev.sport_title ev.sport_key
  let sport := ev.sport_key
  let teamA := ev.away_team.trim
  let teamB := ev.home_team.trim
  let lines := (ev.bookmakers.map (bookLines teamA teamB)).flatten
  if lines.isEmpty then none
  else some ⟨league, sport, ev.commence_time, teamA, teamB, lines⟩

/-- The normalization stage of fetchTheOddsApi (the pure part following the
HTTP fetch and JSON parse). -/
def fetchTheOddsApiNormalize (leagueOf : String → String → String)
    (raw : List RawOddsApiEvent) : List NormalizedEvent :=
  raw.filterMap (normalizeRawEvent leagueOf)

/-- Concrete raw h2h outcome quoting the away team at decimal 0.95. -/
def cexOutcomeA : RawOutcome := ⟨"Away", 19/20, none⟩

/-- Concrete raw h2h outcome quoting the home team at decimal 2. -/
def cexOutcomeB : RawOutcome := ⟨"Home", 2, none⟩

/-- Concrete raw h2h market containing cexOutcomeA and cexOutcomeB. -/
def cexMarketH2h : RawMarket := ⟨"h2h", [cexOutcomeA, cexOutcomeB]⟩

/-- Concrete raw bookmaker quoting cexMarketH2h. -/
def cexBookmaker : RawBookmaker := ⟨"bookx", "BookX", [cexMarketH2h], none⟩

/-- Concrete raw event for the normalization counterexample: a single h2h
market quoting the away team at decimal 0.95. -/
def rawCexEvent : RawOddsApiEvent :=
  ⟨"E1", "basketball_nba", "Basketball (NBA)", "2025-01-01T00:00:00Z",
   "Home", "Away", [cexBookmaker]⟩

/-- Concrete league derivation for counterexamples and witnesses. -/
def cexLeagueOf : String → String → String := fun _ _ => "NBA"

/-! ## Fingerprints (web/lib/ingest.ts and the batch scheduler) -/

/-- Loop body of computeBestPriceHash (web/lib/ingest.ts): prices that are
non-finite or ≤ 1 are skipped (`continue`); a ℚ price is always finite, so
only the ≤ 1 test fires in the model.  Otherwise the matching best slot is
raised with Math.max. -/
def ingestBestStep (best : ℚ × ℚ) (line : NormalizedLine) : ℚ × ℚ :=
  let price := line.decimal
  if price ≤ 1 then best
  else
    ((if line.outcome = OutcomeKind.A then max best.1 price else best.1),
     (if line.outcome = OutcomeKind.B then max best.2 price else best.2))

/-- Best A/B prices accumulated by computeBestPriceHash (web/lib/ingest.ts). -/
def bestPricesIngest (e : NormalizedEvent) : ℚ × ℚ :=
  e.lines.foldl ingestBestStep (0, 0)

/-- computeBestPriceHash: the SHA-1 of `"A:<bestA>|B:<bestB>"`, modelled as an
abstract digest of the best-price pair. -/
def computeBestPriceHash (digest : ℚ → ℚ → String) (e : NormalizedEvent) : String :=
  digest (bestPricesIngest e).1 (bestPricesIngest e).2

/-- Loop body of computeEventOddsHash (the batch scheduler):
`Math.max(best, Number(line.decimal) || 0)` with no finiteness or > 1 filter;
`|| 0` maps a zero (or NaN) decimal to 0. -/
def schedulerBestStep (best : ℚ × ℚ) (line : NormalizedLine) : ℚ × ℚ :=
  let v := if line.decimal = 0 then 0 else line.decimal
  ((if line.outcome = OutcomeKind.A then max best.1 v else best.1),
   (if line.outcome = OutcomeKind.B then max best.2 v else best.2))

/-- Best A/B prices accumulated by computeEventOddsHash (the batch scheduler). -/
def bestPricesScheduler (e : NormalizedEvent) : ℚ × ℚ :=
  e.lines.foldl schedulerBestStep (0, 0)

/-- computeEventOddsHash: the SHA-1 of `"A:<bestA>|B:<bestB>"` over the
scheduler's best-price pair. -/
def computeEventOddsHash (digest : ℚ → ℚ → String) (e : NormalizedEvent) : String :=
  digest (bestPricesScheduler e).1 (bestPricesScheduler e).2

/-- Best price as worded by the spec: the maximum decimal price among the
event's MONEYLINE lines for the given outcome, prices ≤ 1.0 excluded. -/
def specBestMoneyline (e : NormalizedEvent) (o : OutcomeKind) : ℚ :=
  ((e.lines.filter (fun l =>
      decide (l.market = MarketKind.ML ∧ l.outcome = o ∧ 1 < l.decimal))).map
    (fun l => l.decimal)).foldr max 0

/-- Best price over all of the event's lines (any market kind) for the given
outcome, prices ≤ 1.0 excluded — what computeBestPriceHash actually uses. -/
def specBestOver1 (e : NormalizedEvent) (o : OutcomeKind) : ℚ :=
  ((e.lines.filter (fun l =>
      decide (l.outcome = o ∧ 1 < l.decimal))).map
    (fun l => l.decimal)).foldr max 0

/-- Best price over all of the event's lines for the given outcome with no
price exclusion at all — what computeEventOddsHash actually uses. -/
def specBestAny (e : NormalizedEvent) (o : OutcomeKind) : ℚ :=
  ((e.lines.filter (fun l => decide (l.outcome = o))).map
    (fun l => l.decimal)).foldr max 0

/-- Concrete event for the fingerprint counterexample: an A-side moneyline
price of 0.95 (≤ 1) next to a B-side price of 2. -/
def hashCexEvent : NormalizedEvent :=
  ⟨"NBA", "basketball_nba", "2025-01-01T00:00:00Z", "Away", "Home",
   [⟨"B1", MarketKind.ML, OutcomeKind.A, 19/20, none, none⟩,
    ⟨"B1", MarketKind.ML, OutcomeKind.B, 2, none, none⟩]⟩

/-- Concrete digest distinguishing the two preimages of the counterexample. -/
def hashCexDigest : ℚ → ℚ → String :=
  fun a _ => if a = 19/20 then "X" else "Y"

/-! ## Ingestion (web/lib/ingest.ts, ingestNormalizedEvents) -/

/-- fingerprintKey: the template literal
`${teamA}@${teamB}:${startsAt}:${league}:${sport}:${marketType}` with the
default marketType "ML". -/
def fingerprintKey (e : NormalizedEvent) : String :=
  e.teamA ++ "@" ++ e.teamB ++ ":" ++ e.startsAt ++ ":" ++ e.league ++ ":" ++
    e.sport ++ ":" ++ "ML"

/-- Repository operations issued by the ingest writer. -/
inductive RepoOp where
  | getOrCreateEventAndMarket (ev : NormalizedEvent) (marketType : MarketKind)
  | upsertSportsbook (name : String)
  | upsertOdds (marketType : MarketKind) (ev : NormalizedEvent) (line : NormalizedLine)
deriving DecidableEq, Repr

/-- upsertOddsBatch: per line, ensure the sportsbook exists then upsert the
odds row. -/
def upsertOddsBatchOps (ev : NormalizedEvent) (mt : MarketKind)
    (lines : List NormalizedLine) : List RepoOp :=
  (lines.map (fun l => [RepoOp.upsertSportsbook l.book,
                        RepoOp.upsertOdds mt ev l])).flatten

/-- The event's lines of one market type (`linesByMarket`). -/
def linesFor (e : NormalizedEvent) (mt : MarketKind) : List NormalizedLine :=
  e.lines.filter (fun l => l.market == mt)

/-- Outcome of processing one normalized event inside ingestNormalizedEvents:
the repository operations issued, the deltas applied to the
eventsTouched/oddsWritten counters, and the fingerprint committed (if any). -/
structure EventOutcome where
  ops : List RepoOp
  eventsTouchedDelta : ℕ
  oddsWrittenDelta : ℕ
  commit : Option (String × String)
deriving DecidableEq, Repr

/-- The write path of one event: for each market type with at least one line,
find-or-create the event/market and upsert the lines in a batch. -/
def writeEventOps (ev : NormalizedEvent) : List RepoOp :=
  ([MarketKind.ML, MarketKind.SPREAD, MarketKind.TOTAL].map (fun mt =>
    let ls := linesFor ev mt
    if ls.isEmpty then []
    else RepoOp.getOrCreateEventAndMarket ev mt :: upsertOddsBatchOps ev mt ls)).flatten

/-- Per-event body of ingestNormalizedEvents: compare the stored fingerprint
hash with the fresh one (`if (prevHash && prevHash === newHash) continue`);
on a match nothing is written and no counter moves, otherwise the lines are
written, the counters advance and the new fingerprint is upserted.  `store`
is the OddsFingerprint table read in one batched lookup before the loop. -/
def processEventIngest (digest : ℚ → ℚ → String) (store : String → Option String)
    (ev : NormalizedEvent) : EventOutcome :=
  let key := fingerprintKey ev
  let newHash := computeBestPriceHash digest ev
  let skip : Bool := match store key with
    | some prev => decide (prev ≠ "" ∧ prev = newHash)
    | none => false
  if skip then ⟨[], 0, 0, none⟩
  else
    ⟨writeEventOps ev, 1,
     ([MarketKind.ML, MarketKind.SPREAD, MarketKind.TOTAL].map
       (fun mt => (linesFor ev mt).length)).sum,
     some (key, newHash)⟩

/-- ingestNormalizedEvents totals: the sum of the per-event counter deltas. -/
def ingestNormalizedEvents (digest : ℚ → ℚ → String) (store : String → Option String)
    (events : List NormalizedEvent) : ℕ × ℕ :=
  (events.map (processEventIngest digest store)).foldl
    (fun acc o => (acc.1 + o.eventsTouchedDelta, acc.2 + o.oddsWrittenDelta)) (0, 0)

/-! ## Batch scheduler hash guard (POST /api/ingest-all) -/

/-- stableId: `${teamA}@${teamB}:${startsAt}:${sport}:${market}`. -/
def stableId (sport market : String) (e : NormalizedEvent) : String :=
  e.teamA ++ "@" ++ e.teamB ++ ":" ++ e.startsAt ++ ":" ++ sport ++ ":" ++ market

/-- State of the scheduler's hash-guard loop: the in-process
lastOddsHashByEvent cache (association list, most recent entry first), the
events queued for ingestion, and the number of no-change detail rows. -/
structure GuardState where
  cache : List (String × String)
  toIngest : List NormalizedEvent
  noChange : ℕ
deriving Repr

/-- One iteration of the hash-guard loop: on a cache hit with an identical
hash the event is reported no-change; otherwise the cache is updated first
and the event queued for ingestion. -/
def hashGuardStep (digest : ℚ → ℚ → String) (sport market : String)
    (st : GuardState) (e : NormalizedEvent) : GuardState :=
  let sid := stableId sport market e
  let hash := computeEventOddsHash digest e
  match st.cache.lookup sid with
  | some prev =>
    if prev ≠ "" ∧ prev = hash then { st with noChange := st.noChange + 1 }
    else { cache := (sid, hash) :: st.cache,
           toIngest := st.toIngest ++ [e], noChange := st.noChange }
  | none => { cache := (sid, hash) :: st.cache,
              toIngest := st.toIngest ++ [e], noChange := st.noChange }

/-- The scheduler's hash-guard pass over the shortlisted events. -/
def hashGuard (digest : ℚ → ℚ → String) (sport market : String)
    (cache : List (String × String)) (events : List NormalizedEvent) : GuardState :=
  events.foldl (hashGuardStep digest sport market) ⟨cache, [], 0⟩

/-- The tail of one (sport, market) combination after shortlisting: run the
hash guard, then return without writes when nothing passed or when dryRun is
set, and otherwise ingest the queued events.  Returns the guard state and the
(eventsTouched, oddsWritten) totals contributed by the combination. -/
def runComboIngest (digest : ℚ → ℚ → String) (sport market : String)
    (dryRun : Bool) (cache : List (String × String))
    (store : String → Option String) (events : List NormalizedEvent) :
    GuardState × ℕ × ℕ :=
  let g := hashGuard digest sport market cache events
  if g.toIngest.isEmpty then (g, 0, 0)
  else if dryRun then (g, 0, 0)
  else (g, ingestNormalizedEvents digest store g.toIngest)

/-! ## Opportunity query service (GET /api/opportunities) -/

/-- One odds row joined with its sportsbook, as read by the query route. -/
structure OddsRow where
  id : String
  sportsbookId : String
  bookName : String
  outcome : String
  decimal : ℚ
  lastSeenAt : ℤ
deriving DecidableEq, Repr

/-- Condition `(!best || o.decimal > best.decimal)`. -/
def beats (o : OddsRow) : Option OddsRow → Bool
  | none => true
  | some cur => o.decimal > cur.decimal

/-- One iteration of the route's best-price scan: stale quotes
(`ageMs > FRESH_MS`) and non-whitelisted books are skipped before either
best slot can be updated. -/
def bestStep (now freshMs : ℤ) (wl : List String)
    (st : Option OddsRow × Option OddsRow) (o : OddsRow) :
    Option OddsRow × Option OddsRow :=
  if now - o.lastSeenAt > freshMs then st
  else if wl ≠ [] ∧ ¬ wl.contains o.bookName.toLower then st
  else
    let st1 := if o.outcome = "A" ∧ beats o st.1 then (some o, st.2) else st
    if o.outcome = "B" ∧ beats o st1.2 then (st1.1, some o) else st1

/-- The route's scan over one market's odds rows. -/
def selectBestAB (now freshMs : ℤ) (wl : List String)
    (odds : List OddsRow) : Option OddsRow × Option OddsRow :=
  odds.foldl (bestStep now freshMs wl) (none, none)

/-- An opportunity emitted by the query route for one market. -/
structure MarketOpportunity where
  aRow : OddsRow
  bRow : OddsRow
  roi : ℚ
deriving DecidableEq, Repr

/-- Per-market body of the query route: pick best A and best B among fresh,
whitelisted rows; skip the market when a side is missing, when both bests
come from the same sportsbook, or when the ROI is below the threshold. -/
def processMarket (now freshMs : ℤ) (minRoi : ℚ) (wl : List String)
    (odds : List OddsRow) : Option MarketOpportunity :=
  match (selectBestAB now freshMs wl odds).1, (selectBestAB now freshMs wl odds).2 with
  | some bestA, some bestB =>
    if bestA.sportsbookId = bestB.sportsbookId then none
    else if roiOnStake bestA.decimal bestB.decimal < minRoi then none
    else some ⟨bestA, bestB, roiOnStake bestA.decimal bestB.decimal⟩
  | _, _ => none

/-- Concrete odds rows for the query-route witnesses: fresh quotes from two
different sportsbooks at decimal 2.10 each. -/
def routeDemoOdds : List OddsRow :=
  [⟨"o1", "sb1", "BookX", "A", 21/10, 500000⟩,
   ⟨"o2", "sb2", "BookY", "B", 21/10, 500000⟩]

/-- The opportunity the query route emits for routeDemoOdds. -/
def routeDemoResult : MarketOpportunity :=
  ⟨⟨"o1", "sb1", "BookX", "A", 21/10, 500000⟩,
   ⟨"o2", "sb2", "BookY", "B", 21/10, 500000⟩, 1/20⟩

/-- The pair findTwoWayArbs emits for sameBookLegs (both legs from BookX). -/
def sameBookPair : ArbPair :=
  ⟨MarketKind.ML, none,
   ⟨"BookX", OutcomeKind.A, 21/10, none, MarketKind.ML⟩,
   ⟨"BookX", OutcomeKind.B, 21/10, none, MarketKind.ML⟩, 1/20⟩

/-- The pair findTwoWayArbs emits for spreadDemoLegs. -/
def spreadDemoPair : ArbPair :=
  ⟨MarketKind.SPREAD, some (-7/2),
   ⟨"BookX", OutcomeKind.A, 22/10, some (-7/2), MarketKind.SPREAD⟩,
   ⟨"BookY", OutcomeKind.B, 22/10, some (-7/2), MarketKind.SPREAD⟩, 1/10⟩

/-- A constant digest, used to instantiate digest-parametric theorems. -/
def constDigestH : ℚ → ℚ → String := fun _ _ => "h"

/-- A fingerprint store holding hash "h" for hashCexEvent's key. -/
def storeWithH : String → Option String :=
  fun k => if k = fingerprintKey hashCexEvent then some "h" else none

/-- The empty fingerprint store. -/
def emptyStore : String → Option String := fun _ => none

/-! ## Helper lemmas -/

theorem mem_insertDescRoi {p q : ArbPair} {l : List ArbPair} :
    p ∈ insertDescRoi q l ↔ p = q ∨ p ∈ l := by
  induction l with
  | nil => simp [insertDescRoi]
  | cons r rs ih =>
    simp only [insertDescRoi]
    split
    · simp [List.mem_cons]
    · simp only [List.mem_cons, ih]
      tauto

theorem mem_sortByRoiDesc {p : ArbPair} {l : List ArbPair} :
    p ∈ sortByRoiDesc l ↔ p ∈ l := by
  induction l with
  | nil => simp [sortByRoiDesc]
  | cons r rs ih =>
    simp only [sortByRoiDesc, List.foldr_cons] at *
    rw [mem_insertDescRoi, ih]
    simp [List.mem_cons]

theorem exists_groupPair_of_mem {legs : List ArbLeg} {p : ArbPair}
    (h : p ∈ findTwoWayArbs legs) : ∃ key, groupPair legs key = some p := by
  rw [findTwoWayArbs, mem_sortByRoiDesc] at h
  obtain ⟨key, _, hg⟩ := List.mem_filterMap.mp h
  exact ⟨key, hg⟩

theorem groupPair_roi {legs : List ArbLeg} {key : MarketKind × Option ℚ}
    {p : ArbPair} (h : groupPair legs key = some p) :
    0 < p.roi ∧ p.roi = calcTwoWayRoi p.a.decimal p.b.decimal := by
  obtain ⟨mk, lk⟩ := key
  cases mk <;>
    · simp only [groupPair] at h
      repeat' split at h
      all_goals simp_all
      all_goals (obtain rfl := h; simp_all)

theorem isExactLineMatch_eq_some {mk : MarketKind} {l1 l2 : Option ℚ}
    (h : isExactLineMatch mk l1 l2 = true) (hm : mk ≠ MarketKind.ML) :
    ∃ q, l1 = some q ∧ l2 = some q := by
  cases l1 with
  | none => simp [isExactLineMatch, hm] at h
  | some x =>
    cases l2 with
    | none => simp [isExactLineMatch, hm] at h
    | some y =>
      simp only [isExactLineMatch, hm, if_false, decide_eq_true_eq] at h
      exact ⟨x, rfl, by rw [h]⟩

theorem groupPair_line_match {legs : List ArbLeg} {key : MarketKind × Option ℚ}
    {p : ArbPair} (h : groupPair legs key = some p)
    (hm : p.market ≠ MarketKind.ML) :
    ∃ q, p.a.line = some q ∧ p.b.line = some q := by
  obtain ⟨mk, lk⟩ := key
  cases mk
  · simp only [groupPair] at h
    repeat' split at h
    all_goals simp_all
    obtain rfl := h
    simp_all
  all_goals
    simp only [groupPair] at h
    repeat' split at h
    all_goals simp_all
    obtain rfl := h
    exact isExactLineMatch_eq_some (by assumption) hm

theorem div_one_sub_div (s : ℚ) (hs : s ≠ 0) : (1 - s) / s = 1 / s - 1 := by
  field_simp

/-! ## C2: ROI formulas on the emitting code paths -/

/-- C2 counterexample: the oddsUpdater variant of twoWayArbROI reports 1 − k,
not 1/k − 1: at prices a = b = 4 (k = 1/2) it returns 1/2 while 1/k − 1 = 1. -/
theorem oddsUpdater_roi_formula_cex :
    twoWayArbROIUpdater 4 4 = 1 / 2 ∧ 1 / ((1 : ℚ) / 4 + 1 / 4) - 1 = 1 ∧
      ((1 : ℚ) / 2) ≠ 1 := by
  norm_num [twoWayArbROIUpdater]

/-- C2 (amended): for prices a, b > 1 and k = 1/a + 1/b, the guarded ROI
functions (calcTwoWayRoi and the arbitrage twoWayArbROI) return 0 when
k ≥ 1 and 1/k − 1 when k < 1; roiOnStake returns 1/k − 1 (with no k ≥ 1
guard of its own); every pair emitted by findTwoWayArbs carries a positive
ROI equal to calcTwoWayRoi of its two leg prices; but the oddsUpdater
variant of twoWayArbROI returns 1 − k when k < 1 instead of 1/k − 1. -/
theorem roi_paths_formulas (a b : ℚ) (ha : 1 < a) (hb : 1 < b) :
    (1 ≤ 1 / a + 1 / b →
      calcTwoWayRoi a b = 0 ∧ twoWayArbROI a b = 0 ∧ twoWayArbROIUpdater a b = 0) ∧
    (1 / a + 1 / b < 1 →
      calcTwoWayRoi a b = 1 / (1 / a + 1 / b) - 1 ∧
      twoWayArbROI a b = 1 / (1 / a + 1 / b) - 1 ∧
      roiOnStake a b = 1 / (1 / a + 1 / b) - 1 ∧
      twoWayArbROIUpdater a b = 1 - (1 / a + 1 / b)) ∧
    (∀ legs p, p ∈ findTwoWayArbs legs →
      0 < p.roi ∧ p.roi = calcTwoWayRoi p.a.decimal p.b.decimal) := by
  have h0a : (0 : ℚ) < a := zero_lt_one.trans ha
  have h0b : (0 : ℚ) < b := zero_lt_one.trans hb
  have hs : 0 < 1 / a + 1 / b := by positivity
  have hguard : ¬ (a = 0 ∨ b = 0 ∨ a ≤ 0 ∨ b ≤ 0) := by
    push_neg
    exact ⟨ne_of_gt h0a, ne_of_gt h0b, h0a, h0b⟩
  refine ⟨fun hk => ?_, fun hk => ?_, fun legs p hp => ?_⟩
  · refine ⟨?_, ?_, ?_⟩
    · rw [calcTwoWayRoi, if_neg hguard]
      simp only [ge_iff_le]
      rw [if_pos hk]
    · rw [twoWayArbROI]
      simp only [ge_iff_le]
      rw [if_pos hk]
    · rw [twoWayArbROIUpdater, if_neg (not_lt.mpr hk)]
  · have hroi : 0 < 1 / (1 / a + 1 / b) - 1 := by
      have : 1 < 1 / (1 / a + 1 / b) := by
        rw [lt_div_iff hs]
        simpa using hk
      linarith
    refine ⟨?_, ?_, ?_, ?_⟩
    · rw [calcTwoWayRoi, if_neg hguard]
      simp only [ge_iff_le]
      rw [if_neg (not_le.mpr hk), if_pos hroi]
    · rw [twoWayArbROI]
      simp only [ge_iff_le]
      rw [if_neg (not_le.mpr hk)]
      exact div_one_sub_div _ (ne_of_gt hs)
    · rw [roiOnStake]
      exact div_one_sub_div _ (ne_of_gt hs)
    · rw [twoWayArbROIUpdater, if_pos hk]
  · obtain ⟨key, hg⟩ := exists_groupPair_of_mem hp
    exact groupPair_roi hg

/-- C2 witness: the formulas instantiated at a = b = 2.1 (k = 20/21 < 1). -/
theorem roi_paths_formulas_witness :
    (1 : ℚ) < 21 / 10 ∧ (1 : ℚ) < 21 / 10 ∧
    ((1 ≤ 1 / (21 / 10 : ℚ) + 1 / (21 / 10) →
      calcTwoWayRoi (21 / 10) (21 / 10) = 0 ∧ twoWayArbROI (21 / 10) (21 / 10) = 0 ∧
        twoWayArbROIUpdater (21 / 10) (21 / 10) = 0) ∧
    (1 / (21 / 10 : ℚ) + 1 / (21 / 10) < 1 →
      calcTwoWayRoi (21 / 10) (21 / 10) = 1 / (1 / (21 / 10 : ℚ) + 1 / (21 / 10)) - 1 ∧
      twoWayArbROI (21 / 10) (21 / 10) = 1 / (1 / (21 / 10 : ℚ) + 1 / (21 / 10)) - 1 ∧
      roiOnStake (21 / 10) (21 / 10) = 1 / (1 / (21 / 10 : ℚ) + 1 / (21 / 10)) - 1 ∧
      twoWayArbROIUpdater (21 / 10) (21 / 10) = 1 - (1 / (21 / 10 : ℚ) + 1 / (21 / 10))) ∧
    (∀ legs p, p ∈ findTwoWayArbs legs →
      0 < p.roi ∧ p.roi = calcTwoWayRoi p.a.decimal p.b.decimal)) :=
  ⟨by norm_num, by norm_num,
   roi_paths_formulas (21 / 10) (21 / 10) (by norm_num) (by norm_num)⟩

/-! ## C5: roiPct sign invariant -/

/-- C5: for decimal prices a, b > 1, roiPct is positive exactly when the
implied-probability sum is below 1, and is 0 (never negative) otherwise. -/
theorem roiPct_pos_iff (a b : ℚ) (ha : 1 < a) (hb : 1 < b) :
    (0 < roiPct a b ↔ 1 / a + 1 / b < 1) ∧
    (1 ≤ 1 / a + 1 / b → roiPct a b = 0) := by
  have h0a : (0 : ℚ) < a := zero_lt_one.trans ha
  have h0b : (0 : ℚ) < b := zero_lt_one.trans hb
  have hs : 0 < 1 / a + 1 / b := by positivity
  constructor
  · constructor
    · intro hpos
      by_contra hk
      rw [roiPct] at hpos
      simp only [ge_iff_le] at hpos
      rw [if_pos (not_lt.mp hk)] at hpos
      exact lt_irrefl 0 hpos
    · intro hk
      rw [roiPct]
      simp only [ge_iff_le]
      rw [if_neg (not_le.mpr hk)]
      have h1 : 0 < 1 - (1 / a + 1 / b) := by linarith
      positivity
  · intro hk
    rw [roiPct]
    simp only [ge_iff_le]
    rw [if_pos hk]

/-- C5 witness: instantiated at a = b = 2.1. -/
theorem roiPct_pos_iff_witness :
    (1 : ℚ) < 21 / 10 ∧ (1 : ℚ) < 21 / 10 ∧
    ((0 < roiPct (21 / 10) (21 / 10) ↔ 1 / (21 / 10 : ℚ) + 1 / (21 / 10) < 1) ∧
     (1 ≤ 1 / (21 / 10 : ℚ) + 1 / (21 / 10) → roiPct (21 / 10) (21 / 10) = 0)) :=
  ⟨by norm_num, by norm_num,
   roiPct_pos_iff (21 / 10) (21 / 10) (by norm_num) (by norm_num)⟩

/-! ## C6: stake split -/

/-- C6: the stake split sums to the capital target and equalizes the payout
of the two legs, both payouts being C/k. -/
theorem stakeSplit_sums_and_equalizes (C a b : ℚ) (hC : 0 < C)
    (ha : 1 < a) (hb : 1 < b) :
    (stakeSplit C a b).1 + (stakeSplit C a b).2 = C ∧
    (stakeSplit C a b).1 * a = (stakeSplit C a b).2 * b ∧
    (stakeSplit C a b).1 * a = C / (1 / a + 1 / b) := by
  have h0a : (0 : ℚ) < a := zero_lt_one.trans ha
  have h0b : (0 : ℚ) < b := zero_lt_one.trans hb
  have hs : 0 < 1 / a + 1 / b := by positivity
  have hane : a ≠ 0 := ne_of_gt h0a
  have hbne : b ≠ 0 := ne_of_gt h0b
  have hsne : 1 / a + 1 / b ≠ 0 := ne_of_gt hs
  refine ⟨?_, ?_, ?_⟩
  · rw [stakeSplit]
    field_simp
    ring
  · rw [stakeSplit]
    field_simp
    ring
  · rw [stakeSplit]
    field_simp
    ring

/-- C6 witness: instantiated at C = 100, a = b = 2.1. -/
theorem stakeSplit_sums_and_equalizes_witness :
    (0 : ℚ) < 100 ∧ (1 : ℚ) < 21 / 10 ∧ (1 : ℚ) < 21 / 10 ∧
    ((stakeSplit 100 (21 / 10) (21 / 10)).1 + (stakeSplit 100 (21 / 10) (21 / 10)).2 = 100 ∧
     (stakeSplit 100 (21 / 10) (21 / 10)).1 * (21 / 10) =
       (stakeSplit 100 (21 / 10) (21 / 10)).2 * (21 / 10) ∧
     (stakeSplit 100 (21 / 10) (21 / 10)).1 * (21 / 10) =
       100 / (1 / (21 / 10 : ℚ) + 1 / (21 / 10))) :=
  ⟨by norm_num, by norm_num, by norm_num,
   stakeSplit_sums_and_equalizes 100 (21 / 10) (21 / 10)
     (by norm_num) (by norm_num) (by norm_num)⟩

/-! ## C7: exact line match on emitted SPREAD/TOTAL pairs -/

/-- C7: every SPREAD/TOTAL pair emitted by findTwoWayArbs has both legs
carrying exactly the same numeric line value; legs whose lines differ (or
are absent) are never paired. -/
theorem findTwoWayArbs_line_match (legs : List ArbLeg) (p : ArbPair)
    (h : p ∈ findTwoWayArbs legs) (hm : p.market ≠ MarketKind.ML) :
    ∃ q, p.a.line = some q ∧ p.b.line = some q := by
  obtain ⟨key, hg⟩ := exists_groupPair_of_mem h
  exact groupPair_line_match hg hm

/-- C7 witness: instantiated at a concrete SPREAD pair with both lines -3.5. -/
theorem findTwoWayArbs_line_match_witness :
    spreadDemoPair ∈ findTwoWayArbs spreadDemoLegs ∧
    spreadDemoPair.market ≠ MarketKind.ML ∧
    ∃ q, spreadDemoPair.a.line = some q ∧ spreadDemoPair.b.line = some q := by
  have hmem : spreadDemoPair ∈ findTwoWayArbs spreadDemoLegs := by
    have he : findTwoWayArbs spreadDemoLegs = [spreadDemoPair] := by
      norm_num [findTwoWayArbs, spreadDemoLegs, spreadDemoPair, sortByRoiDesc,
        dedupKeys, legKey, groupPair, pickBest, calcTwoWayRoi, insertDescRoi,
        isExactLineMatch, List.filterMap]
      intro hcontra
      exact absurd hcontra (by decide)
    rw [he]
    exact List.mem_singleton.mpr rfl
  have hne : spreadDemoPair.market ≠ MarketKind.ML := by decide
  exact ⟨hmem, hne, findTwoWayArbs_line_match _ _ hmem hne⟩

/-! ## C1: cross-book requirement -/

/-- C1 counterexample: with both sides of the only (ML) group quoted by
BookX at decimal 2.10, findTwoWayArbs emits a pair whose two legs come from
the same book, refuting the claim that the matcher never does so. -/
theorem findTwoWayArbs_same_book_cex :
    ¬ ∀ p ∈ findTwoWayArbs sameBookLegs, p.a.book ≠ p.b.book := by
  intro hall
  have hmem : sameBookPair ∈ findTwoWayArbs sameBookLegs := by
    have he : findTwoWayArbs sameBookLegs = [sameBookPair] := by
      norm_num [findTwoWayArbs, sameBookLegs, sameBookPair, sortByRoiDesc,
        dedupKeys, legKey, groupPair, pickBest, calcTwoWayRoi, insertDescRoi,
        List.filterMap]
    rw [he]
    exact List.mem_singleton.mpr rfl
  exact hall sameBookPair hmem rfl

/-- C1 (amended): findTwoWayArbs itself does not enforce the cross-book rule
(see the counterexample); the exclusion is enforced by the opportunity query
route, which skips any market whose best A and best B quotes come from the
same sportsbook, so every opportunity it emits has legs from two different
sportsbooks. -/
theorem route_best_pair_cross_book (now freshMs : ℤ) (minRoi : ℚ)
    (wl : List String) (odds : List OddsRow) (r : MarketOpportunity)
    (h : processMarket now freshMs minRoi wl odds = some r) :
    r.aRow.sportsbookId ≠ r.bRow.sportsbookId := by
  rw [processMarket] at h
  split at h
  · next bestA bestB hA hB =>
    split at h
    · exact absurd h (by simp)
    · next hne =>
      split at h
      · exact absurd h (by simp)
      · obtain rfl : (⟨bestA, bestB, roiOnStake bestA.decimal bestB.decimal⟩ :
          MarketOpportunity) = r := by injection h
        exact hne
  · exact absurd h (by simp)

/-- C1 witness: the route emits the cross-book pair for routeDemoOdds. -/
theorem route_best_pair_cross_book_witness :
    processMarket 1000000 600000 0 [] routeDemoOdds = some routeDemoResult ∧
    routeDemoResult.aRow.sportsbookId ≠ routeDemoResult.bRow.sportsbookId := by
  have hsel : selectBestAB 1000000 600000 [] routeDemoOdds =
      (some ⟨"o1", "sb1", "BookX", "A", 21 / 10, 500000⟩,
       some ⟨"o2", "sb2", "BookY", "B", 21 / 10, 500000⟩) := rfl
  have h : processMarket 1000000 600000 0 [] routeDemoOdds = some routeDemoResult := by
    rw [processMarket, hsel]
    norm_num [routeDemoResult, roiOnStake]
    intro hcontra
    exact absurd hcontra (by decide)
  exact ⟨h, route_best_pair_cross_book 1000000 600000 0 [] routeDemoOdds
    routeDemoResult h⟩

/-! ## C9: freshness of selected legs -/

theorem bestStep_fresh (now freshMs : ℤ) (wl : List String)
    (st : Option OddsRow × Option OddsRow) (o : OddsRow)
    (h1 : ∀ x, st.1 = some x → now - x.lastSeenAt ≤ freshMs)
    (h2 : ∀ x, st.2 = some x → now - x.lastSeenAt ≤ freshMs) :
    (∀ x, (bestStep now freshMs wl st o).1 = some x → now - x.lastSeenAt ≤ freshMs) ∧
    (∀ x, (bestStep now freshMs wl st o).2 = some x → now - x.lastSeenAt ≤ freshMs) := by
  unfold bestStep
  by_cases hstale : now - o.lastSeenAt > freshMs
  · rw [if_pos hstale]
    exact ⟨h1, h2⟩
  · rw [if_neg hstale]
    have hf : now - o.lastSeenAt ≤ freshMs := not_lt.mp hstale
    split
    · exact ⟨h1, h2⟩
    · constructor <;> intro x hx <;> (try simp only [] at hx) <;>
        (repeat' split at hx) <;>
        first
          | exact h1 x hx
          | exact h2 x hx
          | (injection hx with hx; subst hx; exact hf)

theorem foldl_bestStep_fresh (now freshMs : ℤ) (wl : List String) :
    ∀ (odds : List OddsRow) (st : Option OddsRow × Option OddsRow),
    (∀ x, st.1 = some x → now - x.lastSeenAt ≤ freshMs) →
    (∀ x, st.2 = some x → now - x.lastSeenAt ≤ freshMs) →
    (∀ x, (odds.foldl (bestStep now freshMs wl) st).1 = some x →
      now - x.lastSeenAt ≤ freshMs) ∧
    (∀ x, (odds.foldl (bestStep now freshMs wl) st).2 = some x →
      now - x.lastSeenAt ≤ freshMs)
  | [], _, h1, h2 => ⟨h1, h2⟩
  | o :: os, st, h1, h2 => by
    rw [List.foldl_cons]
    obtain ⟨g1, g2⟩ := bestStep_fresh now freshMs wl st o h1 h2
    exact foldl_bestStep_fresh now freshMs wl os _ g1 g2

/-- C9: every opportunity emitted by the query route has both of its selected
legs within the freshness window (a quote with now − lastSeenAt beyond the
window is skipped before best-price selection and can never be chosen). -/
theorem route_legs_fresh (now freshMs : ℤ) (minRoi : ℚ) (wl : List String)
    (odds : List OddsRow) (r : MarketOpportunity)
    (h : processMarket now freshMs minRoi wl odds = some r) :
    now - r.aRow.lastSeenAt ≤ freshMs ∧ now - r.bRow.lastSeenAt ≤ freshMs := by
  obtain ⟨f1, f2⟩ := foldl_bestStep_fresh now freshMs wl odds (none, none)
    (fun x hx => by cases hx) (fun x hx => by cases hx)
  rw [processMarket] at h
  split at h
  · next bestA bestB hA hB =>
    split at h
    · exact absurd h (by simp)
    · split at h
      · exact absurd h (by simp)
      · obtain rfl : (⟨bestA, bestB, roiOnStake bestA.decimal bestB.decimal⟩ :
          MarketOpportunity) = r := by injection h
        exact ⟨f1 bestA hA, f2 bestB hB⟩
  · exact absurd h (by simp)

/-- C9 witness: the emitted routeDemoResult legs are within the window. -/
theorem route_legs_fresh_witness :
    processMarket 1000000 600000 0 [] routeDemoOdds = some routeDemoResult ∧
    1000000 - routeDemoResult.aRow.lastSeenAt ≤ 600000 ∧
    1000000 - routeDemoResult.bRow.lastSeenAt ≤ 600000 := by
  have hsel : selectBestAB 1000000 600000 [] routeDemoOdds =
      (some ⟨"o1", "sb1", "BookX", "A", 21 / 10, 500000⟩,
       some ⟨"o2", "sb2", "BookY", "B", 21 / 10, 500000⟩) := rfl
  have h : processMarket 1000000 600000 0 [] routeDemoOdds = some routeDemoResult := by
    rw [processMarket, hsel]
    norm_num [routeDemoResult, roiOnStake]
    intro hcontra
    exact absurd hcontra (by decide)
  exact ⟨h, route_legs_fresh 1000000 600000 0 [] routeDemoOdds routeDemoResult h⟩

/-! ## C4: fingerprint best-price computations -/

theorem foldr_max_shift (L : List ℚ) (x d : ℚ) :
    L.foldr max (max x d) = max d (L.foldr max x) := by
  induction L with
  | nil => exact max_comm x d
  | cons c L ih => rw [List.foldr_cons, List.foldr_cons, ih, max_left_comm]

theorem foldl_ingestBestStep (ls : List NormalizedLine) (x y : ℚ) :
    ls.foldl ingestBestStep (x, y) =
      (((ls.filter (fun l =>
          decide (l.outcome = OutcomeKind.A ∧ 1 < l.decimal))).map
          (fun l => l.decimal)).foldr max x,
       ((ls.filter (fun l =>
          decide (l.outcome = OutcomeKind.B ∧ 1 < l.decimal))).map
          (fun l => l.decimal)).foldr max y) := by
  induction ls generalizing x y with
  | nil => simp
  | cons h t ih =>
    rw [List.foldl_cons]
    by_cases hd : h.decimal ≤ 1
    · have h1 : ¬ 1 < h.decimal := not_lt.mpr hd
      rw [show ingestBestStep (x, y) h = (x, y) from by simp [ingestBestStep, hd]]
      rw [ih]
      simp [List.filter_cons, h1]
    · have h1 : 1 < h.decimal := not_le.mp hd
      cases ho : h.outcome with
      | A =>
        rw [show ingestBestStep (x, y) h = (max x h.decimal, y) from by
          simp [ingestBestStep, hd, ho]]
        rw [ih]
        simp [List.filter_cons, h1, ho, foldr_max_shift]
      | B =>
        rw [show ingestBestStep (x, y) h = (x, max y h.decimal) from by
          simp [ingestBestStep, hd, ho]]
        rw [ih]
        simp [List.filter_cons, h1, ho, foldr_max_shift]
      | OVER =>
        rw [show ingestBestStep (x, y) h = (x, y) from by
          simp [ingestBestStep, hd, ho]]
        rw [ih]
        simp [List.filter_cons, ho]
      | UNDER =>
        rw [show ingestBestStep (x, y) h = (x, y) from by
          simp [ingestBestStep, hd, ho]]
        rw [ih]
        simp [List.filter_cons, ho]

theorem foldl_schedulerBestStep (ls : List NormalizedLine) (x y : ℚ) :
    ls.foldl schedulerBestStep (x, y) =
      (((ls.filter (fun l => decide (l.outcome = OutcomeKind.A))).map
          (fun l => l.decimal)).foldr max x,
       ((ls.filter (fun l => decide (l.outcome = OutcomeKind.B))).map
          (fun l => l.decimal)).foldr max y) := by
  induction ls generalizing x y with
  | nil => simp
  | cons h t ih =>
    rw [List.foldl_cons]
    have hv : (if h.decimal = 0 then (0 : ℚ) else h.decimal) = h.decimal := by
      split
      · next hz => exact hz.symm
      · rfl
    cases ho : h.outcome with
    | A =>
      rw [show schedulerBestStep (x, y) h = (max x h.decimal, y) from by
        simp [schedulerBestStep, ho, hv]]
      rw [ih]
      simp [List.filter_cons, ho, foldr_max_shift]
    | B =>
      rw [show schedulerBestStep (x, y) h = (x, max y h.decimal) from by
        simp [schedulerBestStep, ho, hv]]
      rw [ih]
      simp [List.filter_cons, ho, foldr_max_shift]
    | OVER =>
      rw [show schedulerBestStep (x, y) h = (x, y) from by
        simp [schedulerBestStep, ho]]
      rw [ih]
      simp [List.filter_cons, ho]
    | UNDER =>
      rw [show schedulerBestStep (x, y) h = (x, y) from by
        simp [schedulerBestStep, ho]]
      rw [ih]
      simp [List.filter_cons, ho]

/-- C4 counterexample: on an event whose A-side moneyline price is 0.95,
computeEventOddsHash digests the pair (0.95, 2) while the claim's formula
(best MONEYLINE price with ≤ 1.0 excluded) digests (0, 2); a digest that
distinguishes the two preimages yields different hashes. -/
theorem computeEventOddsHash_includes_low_price_cex :
    computeEventOddsHash hashCexDigest hashCexEvent ≠
      hashCexDigest (specBestMoneyline hashCexEvent OutcomeKind.A)
        (specBestMoneyline hashCexEvent OutcomeKind.B) := by
  have hBA : OutcomeKind.B ≠ OutcomeKind.A := by decide
  have hAB : OutcomeKind.A ≠ OutcomeKind.B := by decide
  have h1 : computeEventOddsHash hashCexDigest hashCexEvent = "X" := by
    rw [computeEventOddsHash, bestPricesScheduler]
    norm_num [hashCexEvent, schedulerBestStep, hashCexDigest, hBA, hAB]
  have h2 : hashCexDigest (specBestMoneyline hashCexEvent OutcomeKind.A)
      (specBestMoneyline hashCexEvent OutcomeKind.B) = "Y" := by
    norm_num [specBestMoneyline, hashCexEvent, hashCexDigest, List.filter_cons,
      hBA, hAB]
  rw [h1, h2]
  decide

/-- C4 (amended): both fingerprint functions digest the pair of best prices
taken over ALL of the event's lines for outcomes A and B (not only MONEYLINE
lines): computeBestPriceHash excludes non-finite and ≤ 1.0 prices from the
maximum, while computeEventOddsHash applies no price exclusion at all (its
only coercion maps a non-numeric/zero decimal to 0). -/
theorem fingerprint_best_price_formulas (digest : ℚ → ℚ → String)
    (e : NormalizedEvent) :
    computeBestPriceHash digest e =
      digest (specBestOver1 e OutcomeKind.A) (specBestOver1 e OutcomeKind.B) ∧
    computeEventOddsHash digest e =
      digest (specBestAny e OutcomeKind.A) (specBestAny e OutcomeKind.B) := by
  constructor
  · rw [computeBestPriceHash, bestPricesIngest, foldl_ingestBestStep]
    rfl
  · rw [computeEventOddsHash, bestPricesScheduler, foldl_schedulerBestStep]
    rfl

/-! ## C3: normalization does not filter prices -/

theorem bookLines_ml_memA (teamA teamB : String) (bk : RawBookmaker)
    (m : RawMarket) (o : RawOutcome)
    (hm : bk.markets.find? (fun mk => mk.key == "h2h") = some m)
    (ho : o ∈ m.outcomes) (hname : o.name.trim = teamA) :
    (⟨rawBookName bk, MarketKind.ML, OutcomeKind.A, o.price, none,
      bk.last_update⟩ : NormalizedLine) ∈ bookLines teamA teamB bk := by
  rw [bookLines, hm]
  refine List.mem_append.mpr (Or.inl (List.mem_append.mpr (Or.inl ?_)))
  refine List.mem_filterMap.mpr ⟨o, ho, ?_⟩
  rw [mlOutcomeLine]
  simp [hname]

theorem bookLines_ml_memB (teamA teamB : String) (bk : RawBookmaker)
    (m : RawMarket) (o : RawOutcome)
    (hm : bk.markets.find? (fun mk => mk.key == "h2h") = some m)
    (ho : o ∈ m.outcomes) (hnA : o.name.trim ≠ teamA)
    (hnB : o.name.trim = teamB) :
    (⟨rawBookName bk, MarketKind.ML, OutcomeKind.B, o.price, none,
      bk.last_update⟩ : NormalizedLine) ∈ bookLines teamA teamB bk := by
  rw [bookLines, hm]
  refine List.mem_append.mpr (Or.inl (List.mem_append.mpr (Or.inl ?_)))
  refine List.mem_filterMap.mpr ⟨o, ho, ?_⟩
  rw [mlOutcomeLine]
  rw [if_neg hnA, if_pos hnB]

theorem normalize_keeps_ml_outcomeA (leagueOf : String → String → String)
    (raw : List RawOddsApiEvent) (ev : RawOddsApiEvent) (bk : RawBookmaker)
    (m : RawMarket) (o : RawOutcome)
    (hev : ev ∈ raw) (hbk : bk ∈ ev.bookmakers)
    (hm : bk.markets.find? (fun mk => mk.key == "h2h") = some m)
    (ho : o ∈ m.outcomes) (hname : o.name.trim = ev.away_team.trim) :
    ∃ ne ∈ fetchTheOddsApiNormalize leagueOf raw, ∃ l ∈ ne.lines,
      l.decimal = o.price ∧ l.market = MarketKind.ML ∧
      l.outcome = OutcomeKind.A := by
  have hline := bookLines_ml_memA ev.away_team.trim ev.home_team.trim bk m o
    hm ho hname
  have hmem : (⟨rawBookName bk, MarketKind.ML, OutcomeKind.A, o.price, none,
      bk.last_update⟩ : NormalizedLine) ∈
      (ev.bookmakers.map (bookLines ev.away_team.trim ev.home_team.trim)).flatten :=
    List.mem_flatten.mpr ⟨bookLines ev.away_team.trim ev.home_team.trim bk,
      List.mem_map_of_mem _ hbk, hline⟩
  have hnonempty :
      ((ev.bookmakers.map (bookLines ev.away_team.trim ev.home_team.trim)).flatten).isEmpty
        = false :=
    List.isEmpty_eq_false.mpr (List.ne_nil_of_mem hmem)
  have hne : normalizeRawEvent leagueOf ev = some
      ⟨leagueOf ev.sport_title ev.sport_key, ev.sport_key, ev.commence_time,
       ev.away_team.trim, ev.home_team.trim,
       (ev.bookmakers.map (bookLines ev.away_team.trim ev.home_team.trim)).flatten⟩ := by
    rw [normalizeRawEvent]
    simp only [hnonempty, Bool.false_eq_true, if_false]
  refine ⟨_, List.mem_filterMap.mpr ⟨ev, hev, hne⟩, _, hmem, rfl, rfl, rfl⟩

theorem normalize_keeps_ml_outcomeB (leagueOf : String → String → String)
    (raw : List RawOddsApiEvent) (ev : RawOddsApiEvent) (bk : RawBookmaker)
    (m : RawMarket) (o : RawOutcome)
    (hev : ev ∈ raw) (hbk : bk ∈ ev.bookmakers)
    (hm : bk.markets.find? (fun mk => mk.key == "h2h") = some m)
    (ho : o ∈ m.outcomes) (hnA : o.name.trim ≠ ev.away_team.trim)
    (hnB : o.name.trim = ev.home_team.trim) :
    ∃ ne ∈ fetchTheOddsApiNormalize leagueOf raw, ∃ l ∈ ne.lines,
      l.decimal = o.price ∧ l.market = MarketKind.ML ∧
      l.outcome = OutcomeKind.B := by
  have hline := bookLines_ml_memB ev.away_team.trim ev.home_team.trim bk m o
    hm ho hnA hnB
  have hmem : (⟨rawBookName bk, MarketKind.ML, OutcomeKind.B, o.price, none,
      bk.last_update⟩ : NormalizedLine) ∈
      (ev.bookmakers.map (bookLines ev.away_team.trim ev.home_team.trim)).flatten :=
    List.mem_flatten.mpr ⟨bookLines ev.away_team.trim ev.home_team.trim bk,
      List.mem_map_of_mem _ hbk, hline⟩
  have hnonempty :
      ((ev.bookmakers.map (bookLines ev.away_team.trim ev.home_team.trim)).flatten).isEmpty
        = false :=
    List.isEmpty_eq_false.mpr (List.ne_nil_of_mem hmem)
  have hne : normalizeRawEvent leagueOf ev = some
      ⟨leagueOf ev.sport_title ev.sport_key, ev.sport_key, ev.commence_time,
       ev.away_team.trim, ev.home_team.trim,
       (ev.bookmakers.map (bookLines ev.away_team.trim ev.home_team.trim)).flatten⟩ := by
    rw [normalizeRawEvent]
    simp only [hnonempty, Bool.false_eq_true, if_false]
  refine ⟨_, List.mem_filterMap.mpr ⟨ev, hev, hne⟩, _, hmem, rfl, rfl, rfl⟩

/-- C3 counterexample: a provider h2h outcome priced 0.95 for the away team
survives normalization — the returned NormalizedEvent list contains a line
with decimal 0.95 ≤ 1, refuting the claim that such lines are dropped. -/
theorem normalization_keeps_low_price_cex :
    ¬ ∀ ne ∈ fetchTheOddsApiNormalize cexLeagueOf [rawCexEvent],
        ∀ l ∈ ne.lines, 1 < l.decimal := by
  intro hall
  obtain ⟨ne, hne, l, hl, hdec, -, -⟩ :=
    normalize_keeps_ml_outcomeA cexLeagueOf [rawCexEvent] rawCexEvent
      cexBookmaker cexMarketH2h cexOutcomeA
      (List.mem_singleton.mpr rfl) (List.mem_singleton.mpr rfl) rfl
      (List.mem_cons_self _ _) rfl
  have hlow := hall ne hne l hl
  rw [hdec] at hlow
  norm_num [cexOutcomeA] at hlow

/-- C3 (amended): normalization applies no price filter: every h2h outcome
whose trimmed name matches a team name survives into the normalized lines
with its decimal price unchanged, whatever that price is — as outcome A when
it equals the trimmed away team, as outcome B when it instead equals the
trimmed home team (the ≤ 1.0 and finiteness exclusions happen later, in
best-price/arb computations, not in fetchTheOddsApi). -/
theorem normalization_no_price_filter (leagueOf : String → String → String)
    (raw : List RawOddsApiEvent) (ev : RawOddsApiEvent) (bk : RawBookmaker)
    (m : RawMarket) (o : RawOutcome)
    (hev : ev ∈ raw) (hbk : bk ∈ ev.bookmakers)
    (hm : bk.markets.find? (fun mk => mk.key == "h2h") = some m)
    (ho : o ∈ m.outcomes) :
    (o.name.trim = ev.away_team.trim →
      ∃ ne ∈ fetchTheOddsApiNormalize leagueOf raw, ∃ l ∈ ne.lines,
        l.decimal = o.price ∧ l.market = MarketKind.ML ∧
        l.outcome = OutcomeKind.A) ∧
    (o.name.trim ≠ ev.away_team.trim → o.name.trim = ev.home_team.trim →
      ∃ ne ∈ fetchTheOddsApiNormalize leagueOf raw, ∃ l ∈ ne.lines,
        l.decimal = o.price ∧ l.market = MarketKind.ML ∧
        l.outcome = OutcomeKind.B) ∧
    (o.name.trim = ev.away_team.trim ∨ o.name.trim = ev.home_team.trim →
      ∃ ne ∈ fetchTheOddsApiNormalize leagueOf raw, ∃ l ∈ ne.lines,
        l.decimal = o.price ∧ l.market = MarketKind.ML) := by
  refine ⟨fun hA => normalize_keeps_ml_outcomeA leagueOf raw ev bk m o
      hev hbk hm ho hA,
    fun hnA hB => normalize_keeps_ml_outcomeB leagueOf raw ev bk m o
      hev hbk hm ho hnA hB,
    fun hor => ?_⟩
  have hdrop : ∀ oc : OutcomeKind,
      (∃ ne ∈ fetchTheOddsApiNormalize leagueOf raw, ∃ l ∈ ne.lines,
        l.decimal = o.price ∧ l.market = MarketKind.ML ∧ l.outcome = oc) →
      ∃ ne ∈ fetchTheOddsApiNormalize leagueOf raw, ∃ l ∈ ne.lines,
        l.decimal = o.price ∧ l.market = MarketKind.ML := by
    rintro oc ⟨ne, hne, l, hl, hd, hmk, -⟩
    exact ⟨ne, hne, l, hl, hd, hmk⟩
  by_cases hA : o.name.trim = ev.away_team.trim
  · exact hdrop OutcomeKind.A
      (normalize_keeps_ml_outcomeA leagueOf raw ev bk m o hev hbk hm ho hA)
  · rcases hor with h | hB
    · exact absurd h hA
    · exact hdrop OutcomeKind.B
        (normalize_keeps_ml_outcomeB leagueOf raw ev bk m o hev hbk hm ho hA hB)

/-- C3 witness: the price-0.95 away outcome of rawCexEvent reaches the
normalized lines unchanged as outcome A, and the home outcome's price 2
also survives (via the either-team part). -/
theorem normalization_no_price_filter_witness :
    (∃ ne ∈ fetchTheOddsApiNormalize cexLeagueOf [rawCexEvent], ∃ l ∈ ne.lines,
      l.decimal = 19 / 20 ∧ l.market = MarketKind.ML ∧
      l.outcome = OutcomeKind.A) ∧
    (∃ ne ∈ fetchTheOddsApiNormalize cexLeagueOf [rawCexEvent], ∃ l ∈ ne.lines,
      l.decimal = 2 ∧ l.market = MarketKind.ML) :=
  ⟨(normalization_no_price_filter cexLeagueOf [rawCexEvent] rawCexEvent
      cexBookmaker cexMarketH2h cexOutcomeA
      (List.mem_singleton.mpr rfl) (List.mem_singleton.mpr rfl) rfl
      (List.mem_cons_self _ _)).1 rfl,
   (normalization_no_price_filter cexLeagueOf [rawCexEvent] rawCexEvent
      cexBookmaker cexMarketH2h cexOutcomeB
      (List.mem_singleton.mpr rfl) (List.mem_singleton.mpr rfl) rfl
      (List.mem_cons_of_mem _ (List.mem_cons_self _ _))).2.2 (Or.inr rfl)⟩

/-! ## C8: fingerprint guard inside ingestNormalizedEvents -/

theorem sum_linesFor_length (e : NormalizedEvent) :
    ([MarketKind.ML, MarketKind.SPREAD, MarketKind.TOTAL].map
      (fun mt => (linesFor e mt).length)).sum = e.lines.length := by
  obtain ⟨league, sport, startsAt, teamA, teamB, ls⟩ := e
  simp only [linesFor]
  induction ls with
  | nil => simp
  | cons h t ih =>
    simp only [List.map_cons, List.map_nil, List.sum_cons, List.sum_nil] at ih ⊢
    cases hmt : h.market <;>
      · simp [List.filter_cons, hmt]
        omega

theorem upsertOdds_mem_writeEventOps (ev : NormalizedEvent)
    (l : NormalizedLine) (hl : l ∈ ev.lines) :
    RepoOp.upsertOdds l.market ev l ∈ writeEventOps ev := by
  have hmem : l ∈ linesFor ev l.market := by
    rw [linesFor]
    exact List.mem_filter.mpr ⟨hl, by simp⟩
  have hne : (linesFor ev l.market).isEmpty = false :=
    List.isEmpty_eq_false.mpr (List.ne_nil_of_mem hmem)
  rw [writeEventOps]
  refine List.mem_flatten.mpr
    ⟨(fun mt =>
        if (linesFor ev mt).isEmpty then []
        else RepoOp.getOrCreateEventAndMarket ev mt ::
          upsertOddsBatchOps ev mt (linesFor ev mt)) l.market,
     List.mem_map_of_mem _ ?_, ?_⟩
  · cases l.market <;> simp
  · simp only [hne, Bool.false_eq_true, if_false]
    refine List.mem_cons_of_mem _ ?_
    rw [upsertOddsBatchOps]
    exact List.mem_flatten.mpr ⟨_, List.mem_map_of_mem _ hmem, by simp⟩

/-- C8: inside ingestNormalizedEvents, an event whose previously stored
fingerprint hash equals the freshly computed (non-empty) hash produces no
repository operation, leaves both counters unchanged and commits nothing;
any other event has all of its lines written (one odds upsert per line),
advances eventsTouched by 1 and oddsWritten by its line count, and commits
the new hash under its fingerprint key. -/
theorem ingest_fingerprint_guard (digest : ℚ → ℚ → String)
    (store : String → Option String) (ev : NormalizedEvent) :
    (store (fingerprintKey ev) = some (computeBestPriceHash digest ev) →
     computeBestPriceHash digest ev ≠ "" →
     processEventIngest digest store ev = ⟨[], 0, 0, none⟩) ∧
    (¬ (store (fingerprintKey ev) = some (computeBestPriceHash digest ev) ∧
        computeBestPriceHash digest ev ≠ "") →
     (processEventIngest digest store ev).ops = writeEventOps ev ∧
     (processEventIngest digest store ev).eventsTouchedDelta = 1 ∧
     (processEventIngest digest store ev).oddsWrittenDelta = ev.lines.length ∧
     (processEventIngest digest store ev).commit =
       some (fingerprintKey ev, computeBestPriceHash digest ev) ∧
     ∀ l ∈ ev.lines,
       RepoOp.upsertOdds l.market ev l ∈ (processEventIngest digest store ev).ops) := by
  constructor
  · intro h1 h2
    rw [processEventIngest]
    simp only [h1]
    rw [if_pos (by simp [h2])]
  · intro hnk
    have hout : processEventIngest digest store ev =
        ⟨writeEventOps ev, 1,
         ([MarketKind.ML, MarketKind.SPREAD, MarketKind.TOTAL].map
           (fun mt => (linesFor ev mt).length)).sum,
         some (fingerprintKey ev, computeBestPriceHash digest ev)⟩ := by
      rw [processEventIngest]
      rcases hst : store (fingerprintKey ev) with _ | prev
      · simp only [hst]
        rw [if_neg (by simp)]
      · have hcond : ¬ (prev ≠ "" ∧ prev = computeBestPriceHash digest ev) := by
          rintro ⟨hprev, rfl⟩
          exact hnk ⟨hst, hprev⟩
        simp only [hst]
        rw [if_neg (by simpa using hcond)]
    rw [hout]
    refine ⟨rfl, rfl, sum_linesFor_length ev, rfl, ?_⟩
    intro l hl
    exact upsertOdds_mem_writeEventOps ev l hl

/-- C8 witness: with the stored hash equal to the computed hash "h", the
event is skipped outright; with an empty store, both counters advance. -/
theorem ingest_fingerprint_guard_witness :
    processEventIngest constDigestH storeWithH hashCexEvent = ⟨[], 0, 0, none⟩ ∧
    (processEventIngest constDigestH emptyStore hashCexEvent).eventsTouchedDelta = 1 ∧
    (processEventIngest constDigestH emptyStore hashCexEvent).oddsWrittenDelta = 2 := by
  refine ⟨(ingest_fingerprint_guard constDigestH storeWithH hashCexEvent).1 ?_ ?_,
    ?_, ?_⟩
  · rw [storeWithH]
    rw [if_pos rfl]
    rfl
  · rw [show computeBestPriceHash constDigestH hashCexEvent = "h" from rfl]
    decide
  · exact ((ingest_fingerprint_guard constDigestH emptyStore hashCexEvent).2
      (by simp [emptyStore])).2.1
  · have h := ((ingest_fingerprint_guard constDigestH emptyStore hashCexEvent).2
      (by simp [emptyStore])).2.2.1
    rw [h]
    rfl

/-! ## C10: scheduler hash cache committed before (and independently of) writes -/

theorem runComboIngest_fst (digest : ℚ → ℚ → String) (sport market : String)
    (dryRun : Bool) (cache : List (String × String))
    (store : String → Option String) (events : List NormalizedEvent) :
    (runComboIngest digest sport market dryRun cache store events).1 =
      hashGuard digest sport market cache events := by
  rw [runComboIngest]
  split
  · rfl
  · split
    · rfl
    · rfl

theorem hashGuardStep_lookup_other (digest : ℚ → ℚ → String)
    (sport market : String) (st : GuardState) (e : NormalizedEvent) (k : String)
    (hk : stableId sport market e ≠ k) :
    ((hashGuardStep digest sport market st e).cache).lookup k =
      st.cache.lookup k := by
  have hk2 : (k == stableId sport market e) = false :=
    beq_eq_false_iff_ne.mpr (Ne.symm hk)
  rw [hashGuardStep]
  cases hlk : st.cache.lookup (stableId sport market e) with
  | none => simp [List.lookup, hk2]
  | some prev =>
    dsimp only
    by_cases hc : prev ≠ "" ∧ prev = computeEventOddsHash digest e
    · rw [if_pos hc]
    · rw [if_neg hc]
      simp [List.lookup, hk2]

theorem foldl_guard_lookup_other (digest : ℚ → ℚ → String)
    (sport market : String) (k : String) :
    ∀ (events : List NormalizedEvent) (st : GuardState),
    (∀ e ∈ events, stableId sport market e ≠ k) →
    ((events.foldl (hashGuardStep digest sport market) st).cache).lookup k =
      st.cache.lookup k
  | [], _, _ => rfl
  | f :: t, st, hk => by
    rw [List.foldl_cons]
    rw [foldl_guard_lookup_other digest sport market k t _
      (fun e he => hk e (List.mem_cons_of_mem f he))]
    exact hashGuardStep_lookup_other digest sport market st f k
      (hk f (List.mem_cons_self f t))

theorem hashGuardStep_lookup_self (digest : ℚ → ℚ → String)
    (sport market : String) (st : GuardState) (e : NormalizedEvent) :
    ((hashGuardStep digest sport market st e).cache).lookup
        (stableId sport market e) =
      some (computeEventOddsHash digest e) := by
  rw [hashGuardStep]
  cases hlk : st.cache.lookup (stableId sport market e) with
  | none => simp [List.lookup]
  | some prev =>
    dsimp only
    by_cases hc : prev ≠ "" ∧ prev = computeEventOddsHash digest e
    · rw [if_pos hc]
      dsimp only
      rw [hlk, hc.2]
    · rw [if_neg hc]
      simp [List.lookup]

theorem foldl_guard_lookup_recorded (digest : ℚ → ℚ → String)
    (sport market : String) :
    ∀ (events : List NormalizedEvent) (st : GuardState),
    ((events.map (stableId sport market)).Nodup) →
    ∀ e ∈ events,
    ((events.foldl (hashGuardStep digest sport market) st).cache).lookup
        (stableId sport market e) =
      some (computeEventOddsHash digest e) := by
  intro events
  induction events with
  | nil => intro st _ e he; cases he
  | cons f t ih =>
    intro st hnd e he
    rw [List.map_cons, List.nodup_cons] at hnd
    rcases List.mem_cons.mp he with rfl | het
    · rw [List.foldl_cons]
      have hother : ∀ x ∈ t, stableId sport market x ≠ stableId sport market e := by
        intro x hx hcontra
        exact hnd.1 (hcontra ▸ List.mem_map_of_mem _ hx)
      rw [foldl_guard_lookup_other digest sport market _ t _ hother]
      exact hashGuardStep_lookup_self digest sport market st e
    · rw [List.foldl_cons]
      exact ih _ hnd.2 e het

theorem foldl_guard_all_hit (digest : ℚ → ℚ → String) (sport market : String) :
    ∀ (events : List NormalizedEvent) (st : GuardState),
    (∀ e ∈ events,
      st.cache.lookup (stableId sport market e) =
        some (computeEventOddsHash digest e) ∧
      computeEventOddsHash digest e ≠ "") →
    events.foldl (hashGuardStep digest sport market) st =
      ⟨st.cache, st.toIngest, st.noChange + events.length⟩ := by
  intro events
  induction events with
  | nil => intro st _; simp
  | cons f t ih =>
    intro st hall
    obtain ⟨hlk, hnz⟩ := hall f (List.mem_cons_self f t)
    have hstep : hashGuardStep digest sport market st f =
        { st with noChange := st.noChange + 1 } := by
      rw [hashGuardStep, hlk]
      dsimp only
      rw [if_pos ⟨hnz, rfl⟩]
    rw [List.foldl_cons, hstep]
    rw [ih ⟨st.cache, st.toIngest, st.noChange + 1⟩
      (fun e he => hall e (List.mem_cons_of_mem f he))]
    simp only [List.length_cons]
    congr 1
    omega

/-- C10: the scheduler's hash guard commits the fresh best-price hash to the
in-process cache independently of the dryRun flag and before any repository
write; consequently a second run over the same events (same best prices)
starting from the committed cache reports every event as no-change, queues
nothing for ingestion and writes zero events and zero odds — even when the
first run was a dry run and never wrote anything. -/
theorem scheduler_hash_cache_idempotent (digest : ℚ → ℚ → String)
    (sport market : String) (cache : List (String × String))
    (store : String → Option String) (events : List NormalizedEvent)
    (hids : ((events.map (stableId sport market)).Nodup))
    (hne : ∀ e ∈ events, computeEventOddsHash digest e ≠ "") :
    (∀ dr1 dr2 : Bool,
      (runComboIngest digest sport market dr1 cache store events).1 =
        (runComboIngest digest sport market dr2 cache store events).1) ∧
    hashGuard digest sport market
        (hashGuard digest sport market cache events).cache events =
      ⟨(hashGuard digest sport market cache events).cache, [], events.length⟩ ∧
    (∀ dr : Bool,
      runComboIngest digest sport market dr
          (hashGuard digest sport market cache events).cache store events =
        (⟨(hashGuard digest sport market cache events).cache, [],
          events.length⟩, 0, 0)) := by
  have hrecorded : ∀ e ∈ events,
      ((hashGuard digest sport market cache events).cache).lookup
          (stableId sport market e) =
        some (computeEventOddsHash digest e) := by
    intro e he
    exact foldl_guard_lookup_recorded digest sport market events
      ⟨cache, [], 0⟩ hids e he
  have hsecond : hashGuard digest sport market
      (hashGuard digest sport market cache events).cache events =
      ⟨(hashGuard digest sport market cache events).cache, [], events.length⟩ := by
    rw [hashGuard]
    rw [foldl_guard_all_hit digest sport market events
      ⟨(hashGuard digest sport market cache events).cache, [], 0⟩
      (fun e he => ⟨hrecorded e he, hne e he⟩)]
    simp
  refine ⟨?_, hsecond, ?_⟩
  · intro dr1 dr2
    rw [runComboIngest_fst, runComboIngest_fst]
  · intro dr
    rw [runComboIngest, hsecond]
    rfl

/-- C10 witness: one event, empty cache; after a dry first pass the second
pass is a pure no-change run with zero writes. -/
theorem scheduler_hash_cache_idempotent_witness :
    (([hashCexEvent].map (stableId "s" "m")).Nodup) ∧
    (∀ e ∈ [hashCexEvent], computeEventOddsHash constDigestH e ≠ "") ∧
    (∀ dr : Bool,
      runComboIngest constDigestH "s" "m" dr
          (hashGuard constDigestH "s" "m" [] [hashCexEvent]).cache emptyStore
          [hashCexEvent] =
        (⟨(hashGuard constDigestH "s" "m" [] [hashCexEvent]).cache, [], 1⟩,
         0, 0)) := by
  have hids : (([hashCexEvent].map (stableId "s" "m")).Nodup) := by simp
  have hne : ∀ e ∈ [hashCexEvent], computeEventOddsHash constDigestH e ≠ "" := by
    intro e he
    rw [List.mem_singleton] at he
    subst he
    rw [show computeEventOddsHash constDigestH hashCexEvent = "h" from rfl]
    decide
  have h := (scheduler_hash_cache_idempotent constDigestH "s" "m" [] emptyStore
    [hashCexEvent] hids hne).2.2
  exact ⟨hids, hne, by simpa using h⟩

end ArbPlatform
